import Mathlib

/-!
Formal model of `src/bloom_filter.py` (class `SimpleBloomFilter`).

The Python code is embedded shallowly:

* machine-independent Python integers become `Nat` (all values involved are
  non-negative: SHA-256 digests, list indices, bits 0/1);
* the SHA-256 digest of `hashlib.sha256(...).hexdigest()` followed by
  `int(·, 16)` is the digest bytes read as a big-endian natural number,
  computed by a full executable SHA-256 (FIPS 180-4) over the UTF-8 bytes
  of the input string, matching Python's `str.encode()`;
* Python exceptions (ZeroDivisionError from `% 0`, IndexError from a list
  subscript out of range, ValueError from `int(c)` on a non-digit character)
  are modelled by `Option`: `none` means the operation raises;
* the file system is abstracted as `Option String`: `none` means no file
  exists at `storage_location`, `some s` means the file holds text `s`;
  `save_filter` produces the text written, `load_filter` consumes it;
* the debug `print` in `_hashes` has no observable effect on the state and
  is dropped.
-/

/-! ### SHA-256 (FIPS 180-4), executable, over byte lists -/

/-- Truncate to a 32-bit word, as all SHA-256 word operations do. -/
def w32 (x : Nat) : Nat := x % 4294967296

/-- Right rotation of a 32-bit word by `n` bits. -/
def rotr (n x : Nat) : Nat := w32 ((x >>> n) ||| (x <<< (32 - n)))

/-- Bitwise complement of a 32-bit word. -/
def bnot32 (x : Nat) : Nat := 4294967295 ^^^ x

/-- SHA-256 `Ch` function. -/
def ch (e f g : Nat) : Nat := (e &&& f) ^^^ (bnot32 e &&& g)

/-- SHA-256 `Maj` function. -/
def maj (a b c : Nat) : Nat := (a &&& b) ^^^ (a &&& c) ^^^ (b &&& c)

/-- SHA-256 big sigma 0. -/
def bsig0 (x : Nat) : Nat := rotr 2 x ^^^ rotr 13 x ^^^ rotr 22 x

/-- SHA-256 big sigma 1. -/
def bsig1 (x : Nat) : Nat := rotr 6 x ^^^ rotr 11 x ^^^ rotr 25 x

/-- SHA-256 small sigma 0. -/
def ssig0 (x : Nat) : Nat := rotr 7 x ^^^ rotr 18 x ^^^ (x >>> 3)

/-- SHA-256 small sigma 1. -/
def ssig1 (x : Nat) : Nat := rotr 17 x ^^^ rotr 19 x ^^^ (x >>> 10)

/-- The 64 SHA-256 round constants. -/
def sha256K : List Nat :=
  [1116352408, 1899447441, 3049323471, 3921009573,
   961987163, 1508970993, 2453635748, 2870763221,
   3624381080, 310598401, 607225278, 1426881987,
   1925078388, 2162078206, 2614888103, 3248222580,
   3835390401, 4022224774, 264347078, 604807628,
   770255983, 1249150122, 1555081692, 1996064986,
   2554220882, 2821834349, 2952996808, 3210313671,
   3336571891, 3584528711, 113926993, 338241895,
   666307205, 773529912, 1294757372, 1396182291,
   1695183700, 1986661051, 2177026350, 2456956037,
   2730485921, 2820302411, 3259730800, 3345764771,
   3516065817, 3600352804, 4094571909, 275423344,
   430227734, 506948616, 659060556, 883997877,
   958139571, 1322822218, 1537002063, 1747873779,
   1955562222, 2024104815, 2227730452, 2361852424,
   2428436474, 2756734187, 3204031479, 3329325298]

/-- The SHA-256 initial hash value. -/
def sha256H0 : List Nat :=
  [1779033703, 3144134277, 1013904242, 2773480762,
   1359893119, 2600822924, 528734635, 1541459225]

/-- Group a byte list into big-endian 32-bit words, four bytes per word. -/
def toWords : List Nat → List Nat
  | b0 :: b1 :: b2 :: b3 :: rest =>
      (((b0 * 256 + b1) * 256 + b2) * 256 + b3) :: toWords rest
  | _ => []

/-- Extend the 16 message-schedule words by `n` further words. -/
def extendSched : Nat → List Nat → List Nat
  | 0, ws => ws
  | n + 1, ws =>
      let k := ws.length
      extendSched n (ws ++ [w32 (ssig1 (ws.getD (k - 2) 0) + ws.getD (k - 7) 0 +
        ssig0 (ws.getD (k - 15) 0) + ws.getD (k - 16) 0)])

/-- One SHA-256 compression round; the state is the eight working words. -/
def sha256Round (st : List Nat) (wk : Nat) : List Nat :=
  match st with
  | [a, b, c, d, e, f, g, h] =>
      let t1 := w32 (h + bsig1 e + ch e f g + wk)
      let t2 := w32 (bsig0 a + maj a b c)
      [w32 (t1 + t2), a, b, c, w32 (d + t1), e, f, g]
  | other => other

/-- Process one padded 64-byte block, updating the running hash value. -/
def sha256Block (h : List Nat) (block : List Nat) : List Nat :=
  let ws := extendSched 48 (toWords block)
  let wks := List.zipWith (fun w k => w32 (w + k)) ws sha256K
  let st := wks.foldl sha256Round h
  List.zipWith (fun x y => w32 (x + y)) h st

/-- The eight-byte big-endian encoding of `n`, as SHA-256 length padding uses. -/
def be64 (n : Nat) : List Nat :=
  [(n >>> 56) % 256, (n >>> 48) % 256, (n >>> 40) % 256, (n >>> 32) % 256,
   (n >>> 24) % 256, (n >>> 16) % 256, (n >>> 8) % 256, n % 256]

/-- SHA-256 padding: append `0x80`, zero bytes, and the 64-bit bit length. -/
def sha256Pad (msg : List Nat) : List Nat :=
  let L := msg.length
  let z := (64 - (L + 9) % 64) % 64
  msg ++ 128 :: List.replicate z 0 ++ be64 (8 * L)

/-- Split a list into successive 64-byte chunks (fuel-based so that it
reduces inside the kernel; the fuel is the list length, ample since every
step consumes at least one element). -/
def chunksAux : Nat → List Nat → List (List Nat)
  | 0, _ => []
  | _ + 1, [] => []
  | fuel + 1, l => l.take 64 :: chunksAux fuel (l.drop 64)

/-- Split a list into successive 64-byte chunks. -/
def chunks64 (l : List Nat) : List (List Nat) := chunksAux l.length l

/-- The eight 32-bit words of the SHA-256 digest of a byte list. -/
def sha256Words (msg : List Nat) : List Nat :=
  (chunks64 (sha256Pad msg)).foldl sha256Block sha256H0

/-- The SHA-256 digest of a byte list read as a big-endian natural number.
This is exactly `int(hashlib.sha256(msg).hexdigest(), 16)` in Python. -/
def sha256Nat (msg : List Nat) : Nat :=
  (sha256Words msg).foldl (fun acc x => acc * 4294967296 + x) 0

/-- UTF-8 encoding of one code point, as Python's `str.encode()` produces. -/
def utf8Char (c : Char) : List Nat :=
  let n := c.toNat
  if n < 128 then [n]
  else if n < 2048 then [192 + n / 64, 128 + n % 64]
  else if n < 65536 then [224 + n / 4096, 128 + (n / 64) % 64, 128 + n % 64]
  else [240 + n / 262144, 128 + (n / 4096) % 64, 128 + (n / 64) % 64,
        128 + n % 64]

/-- UTF-8 encoding of a string, as Python's `str.encode()` produces. -/
def strBytes (s : String) : List Nat := s.data.flatMap utf8Char

/-! ### The `SimpleBloomFilter` model -/

/-- The in-memory state of a `SimpleBloomFilter` instance: the fields `size`,
`num_hashes` and `bit_array` of the Python object. `file_name` and
`current_path` only select which file the filter talks to; the file system is
abstracted as an `Option String` passed to `load_filter` (see the header). -/
structure SimpleBloomFilter where
  size : Nat
  num_hashes : Nat
  bit_array : List Nat
deriving Repr, DecidableEq

/-- The body of `SimpleBloomFilter._hashes`: for `i in range(num_hashes)`,
`int(hashlib.sha256(f"{item}{i}".encode()).hexdigest(), 16) % self.size`.
`none` models the `ZeroDivisionError` that `% 0` raises when `size = 0`. -/
def _hashes (bf : SimpleBloomFilter) (item : String) : Option (List Nat) :=
  if bf.size = 0 then none
  else some ((List.range bf.num_hashes).map
    (fun i => sha256Nat (strBytes (item ++ Nat.repr i)) % bf.size))

/-- One pass of the loop in `add`: `self.bit_array[hash_value] = 1` for each
hash value in order. `none` models the `IndexError` raised by an assignment to
an index outside the list. -/
def setBits : List Nat → List Nat → Option (List Nat)
  | l, [] => some l
  | l, i :: is => if i < l.length then setBits (l.set i 1) is else none

/-- `SimpleBloomFilter.add`: set the bit at every hash position to 1. -/
def add (bf : SimpleBloomFilter) (item : String) : Option SimpleBloomFilter :=
  match _hashes bf item with
  | none => none
  | some hs =>
    match setBits bf.bit_array hs with
    | none => none
    | some arr => some { bf with bit_array := arr }

/-- The loop in `check`: walk the hash values in order, return `False` at the
first position whose bit is 0, `True` if every bit is non-zero. `none` models
the `IndexError` raised by reading an index outside the list. -/
def checkBits (l : List Nat) : List Nat → Option Bool
  | [] => some true
  | i :: is =>
    match l[i]? with
    | none => none
    | some b => if b = 0 then some false else checkBits l is

/-- `SimpleBloomFilter.check`. -/
def check (bf : SimpleBloomFilter) (item : String) : Option Bool :=
  match _hashes bf item with
  | none => none
  | some hs => checkBits bf.bit_array hs

/-- `SimpleBloomFilter.save_filter`: the text written to the file, namely
joining `str(bit)` for each bit, with no separator. -/
def save_filter (bf : SimpleBloomFilter) : String :=
  String.join (bf.bit_array.map (fun b => Nat.repr b))

/-- Python's `int(c)` on a one-character string restricted to the ASCII
digits this file format produces: the digit value, or `none` for the
`ValueError` raised on any other character. -/
def pyDigit (c : Char) : Option Nat :=
  if 48 ≤ c.toNat ∧ c.toNat ≤ 57 then some (c.toNat - 48) else none

/-- `list(map(int, f.read()))` over the characters of the file text. -/
def parseDigits : List Char → Option (List Nat)
  | [] => some []
  | c :: cs =>
    match pyDigit c, parseDigits cs with
    | some d, some ds => some (d :: ds)
    | _, _ => none

/-- `SimpleBloomFilter.load_filter`: when a file exists (`some s`), replace
`bit_array` with the parsed characters of its text; when no file exists
(`none` store), leave the filter unchanged. -/
def load_filter (bf : SimpleBloomFilter) (store : Option String) :
    Option SimpleBloomFilter :=
  match store with
  | none => some bf
  | some s =>
    match parseDigits s.data with
    | none => none
    | some ds => some { bf with bit_array := ds }

/-- `SimpleBloomFilter.__init__`: record the configuration, set `bit_array`
to `[0] * size`, then call `load_filter` on the backing store. -/
def init (size num_hashes : Nat) (store : Option String) :
    Option SimpleBloomFilter :=
  load_filter { size := size, num_hashes := num_hashes,
                bit_array := List.replicate size 0 } store

/-- A sequence of `add` calls, left to right; `none` as soon as one raises. -/
def addAll : SimpleBloomFilter → List String → Option SimpleBloomFilter
  | bf, [] => some bf
  | bf, x :: xs =>
    match add bf x with
    | none => none
    | some bf' => addAll bf' xs

/-- The index sequence as the spec describes it: for each `i` below
`num_hashes`, the SHA-256 digest of the item's text followed by the decimal
text of `i`, read as an unsigned integer and reduced modulo `size`. -/
def index_positions (size num_hashes : Nat) (item : String) : List Nat :=
  (List.range num_hashes).map
    (fun i => sha256Nat (strBytes (item ++ Nat.repr i)) % size)

/-- The data-model invariant of the spec: the bit array has exactly `size`
entries, each 0 or 1. -/
def FilterInv (bf : SimpleBloomFilter) : Prop :=
  bf.bit_array.length = bf.size ∧ ∀ b ∈ bf.bit_array, b = 0 ∨ b = 1

/-- SHA-256 test vector: the digest of `"abc"` (FIPS 180-4 appendix), the
decimal form of ba7816bf 8f01cfea 414140de 5dae2223 b00361a3 96177a9c
b410ff61 f20015ad. -/
theorem sha256_abc :
    sha256Nat (strBytes "abc") =
      84342368487090800366523834928142263660104883695016514377462985829716817089965 := by
  decide

/-- SHA-256 test vector: the digest of the empty string, the decimal form
of e3b0c442 98fc1c14 9afbf4c8 996fb924 27ae41e4 649b934c a495991b 7852b855. -/
theorem sha256_empty :
    sha256Nat (strBytes "") =
      102987336249554097029535212322581322789799900648198034993379397001115665086549 := by
  decide

/-! ### Lemmas about the bit-setting loop of `add` -/

/-- A successful bit-setting pass preserves the array length. -/
theorem setBits_length : ∀ {hs l l' : List Nat}, setBits l hs = some l' →
    l'.length = l.length := by
  intro hs
  induction hs with
  | nil => intro l l' h; cases h; rfl
  | cons i is ih =>
    intro l l' h
    simp only [setBits] at h
    split at h
    · exact (ih h).trans (by simp)
    · cases h

/-- A successful bit-setting pass means every index was in bounds. -/
theorem setBits_bounds : ∀ {hs l l' : List Nat}, setBits l hs = some l' →
    ∀ i ∈ hs, i < l.length := by
  intro hs
  induction hs with
  | nil => intro l l' _ i hi; cases hi
  | cons j js ih =>
    intro l l' h i hi
    simp only [setBits] at h
    split at h
    · rename_i hj
      rcases List.mem_cons.mp hi with rfl | hmem
      · exact hj
      · have := ih h i hmem
        simpa using this
    · cases h

/-- The bit-setting pass succeeds when every index is in bounds. -/
theorem setBits_isSome : ∀ {hs l : List Nat}, (∀ i ∈ hs, i < l.length) →
    ∃ l', setBits l hs = some l' := by
  intro hs
  induction hs with
  | nil => intro l _; exact ⟨l, rfl⟩
  | cons j js ih =>
    intro l hb
    have hj : j < l.length := hb j (List.mem_cons_self j js)
    obtain ⟨l', h⟩ := ih (l := l.set j 1)
      (fun i hi => by simpa using hb i (List.mem_cons_of_mem _ hi))
    refine ⟨l', ?_⟩
    simp only [setBits]
    rw [if_pos hj]
    exact h

/-- Pointwise description of a successful bit-setting pass: every listed
position now holds 1, every other position is untouched. -/
theorem setBits_getElem? : ∀ {hs l l' : List Nat}, setBits l hs = some l' →
    ∀ j, l'[j]? = if j ∈ hs then some 1 else l[j]? := by
  intro hs
  induction hs with
  | nil => intro l l' h j; cases h; simp
  | cons i is ih =>
    intro l l' h j
    simp only [setBits] at h
    split at h
    · rename_i hilt
      have hrec := ih h j
      by_cases hjs : j ∈ is
      · rw [hrec, if_pos hjs, if_pos (List.mem_cons_of_mem _ hjs)]
      · rw [hrec, if_neg hjs]
        by_cases hji : j = i
        · subst hji
          rw [if_pos (List.mem_cons_self j is)]
          exact List.getElem?_set_self hilt
        · rw [if_neg (by simp [hji, hjs])]
          exact List.getElem?_set_ne (fun h => hji h.symm)
    · cases h

/-- Every entry of the array after a successful bit-setting pass is 1 or
was already in the array. -/
theorem setBits_mem {hs l l' : List Nat} (h : setBits l hs = some l') :
    ∀ b ∈ l', b = 1 ∨ b ∈ l := by
  intro b hb
  obtain ⟨j, hj⟩ := List.mem_iff_getElem?.mp hb
  rw [setBits_getElem? h j] at hj
  split at hj
  · exact Or.inl (Option.some.inj hj).symm
  · exact Or.inr (List.mem_iff_getElem?.mpr ⟨j, hj⟩)

/-! ### Lemmas about the reading loop of `check` -/

/-- The check loop answers `True` when every listed position holds 1. -/
theorem checkBits_all_one {l : List Nat} : ∀ {hs : List Nat},
    (∀ i ∈ hs, l[i]? = some 1) → checkBits l hs = some true := by
  intro hs
  induction hs with
  | nil => intro _; rfl
  | cons i is ih =>
    intro h
    have hi := h i (List.mem_cons_self i is)
    simp only [checkBits, hi]
    exact ih (fun j hj => h j (List.mem_cons_of_mem _ hj))

/-- The check loop raises no error when every listed position is in bounds. -/
theorem checkBits_isSome {l : List Nat} : ∀ {hs : List Nat},
    (∀ i ∈ hs, i < l.length) → (checkBits l hs).isSome := by
  intro hs
  induction hs with
  | nil => intro _; rfl
  | cons i is ih =>
    intro h
    obtain ⟨b, hb⟩ : ∃ b, l[i]? = some b :=
      ⟨_, List.getElem?_eq_some_iff.mpr ⟨h i (List.mem_cons_self i is), rfl⟩⟩
    simp only [checkBits, hb]
    by_cases hb0 : b = 0
    · rw [if_pos hb0]; rfl
    · rw [if_neg hb0]
      exact ih (fun j hj => h j (List.mem_cons_of_mem _ hj))

/-- With all listed positions in bounds, the check loop answers `False`
exactly when some listed position holds 0. -/
theorem checkBits_false_iff {l : List Nat} : ∀ {hs : List Nat},
    (∀ i ∈ hs, i < l.length) →
    (checkBits l hs = some false ↔ ∃ i ∈ hs, l[i]? = some 0) := by
  intro hs
  induction hs with
  | nil => intro _; simp [checkBits]
  | cons i is ih =>
    intro h
    obtain ⟨b, hb⟩ : ∃ b, l[i]? = some b :=
      ⟨_, List.getElem?_eq_some_iff.mpr ⟨h i (List.mem_cons_self i is), rfl⟩⟩
    simp only [checkBits, hb]
    by_cases hb0 : b = 0
    · subst hb0
      rw [if_pos rfl]
      simp only [true_iff]
      exact ⟨i, List.mem_cons_self i is, hb⟩
    · rw [if_neg hb0, ih (fun j hj => h j (List.mem_cons_of_mem _ hj))]
      constructor
      · rintro ⟨j, hj, hj0⟩
        exact ⟨j, List.mem_cons_of_mem _ hj, hj0⟩
      · rintro ⟨j, hj, hj0⟩
        rcases List.mem_cons.mp hj with rfl | hjm
        · rw [hb] at hj0
          exact absurd (Option.some.inj hj0) hb0
        · exact ⟨j, hjm, hj0⟩

/-- With all listed positions in bounds, the check loop answers `True`
exactly when no listed position holds 0. -/
theorem checkBits_true_iff {l : List Nat} : ∀ {hs : List Nat},
    (∀ i ∈ hs, i < l.length) →
    (checkBits l hs = some true ↔ ∀ i ∈ hs, l[i]? ≠ some 0) := by
  intro hs
  induction hs with
  | nil => intro _; simp [checkBits]
  | cons i is ih =>
    intro h
    obtain ⟨b, hb⟩ : ∃ b, l[i]? = some b :=
      ⟨_, List.getElem?_eq_some_iff.mpr ⟨h i (List.mem_cons_self i is), rfl⟩⟩
    simp only [checkBits, hb]
    by_cases hb0 : b = 0
    · subst hb0
      rw [if_pos rfl]
      constructor
      · intro hfalse; cases hfalse
      · intro hall
        exact absurd hb (hall i (List.mem_cons_self i is))
    · rw [if_neg hb0, ih (fun j hj => h j (List.mem_cons_of_mem _ hj))]
      constructor
      · intro hall j hj
        rcases List.mem_cons.mp hj with rfl | hjm
        · rw [hb]
          intro hcon
          exact hb0 (Option.some.inj hcon)
        · exact hall j hjm
      · intro hall j hj
        exact hall j (List.mem_cons_of_mem _ hj)

/-! ### Lemmas about the hash computation -/

/-- With a non-zero `size`, `_hashes` raises nothing and returns exactly the
index sequence the spec describes. -/
theorem _hashes_eq {bf : SimpleBloomFilter} (h : bf.size ≠ 0) (item : String) :
    _hashes bf item = some (index_positions bf.size bf.num_hashes item) := by
  simp [_hashes, index_positions, h]

/-- With `size = 0` the modulo in `_hashes` raises `ZeroDivisionError`. -/
theorem _hashes_zero {bf : SimpleBloomFilter} (h : bf.size = 0)
    (item : String) : _hashes bf item = none := by
  simp [_hashes, h]

/-- Every index the hash computation produces is below `size`. -/
theorem index_positions_lt {size nh : Nat} (h : 0 < size) (item : String) :
    ∀ i ∈ index_positions size nh item, i < size := by
  intro i hi
  simp only [index_positions, List.mem_map] at hi
  obtain ⟨j, _, rfl⟩ := hi
  exact Nat.mod_lt _ h

/-- The hash computation produces one index per hash round. -/
theorem index_positions_length {size nh : Nat} (item : String) :
    (index_positions size nh item).length = nh := by
  simp [index_positions]

/-- The `i`-th index is the SHA-256 digest of the item's text followed by the
decimal text of `i`, reduced modulo `size`. -/
theorem index_positions_getElem? {size nh : Nat} {item : String} {i : Nat}
    (h : i < nh) :
    (index_positions size nh item)[i]? =
      some (sha256Nat (strBytes (item ++ Nat.repr i)) % size) := by
  simp [index_positions, List.getElem?_range h]

/-! ### Lemmas about `add` -/

/-- Anatomy of a successful `add`: the size was non-zero, the configuration
is unchanged, and the new array is the old one with the hash positions set. -/
theorem add_eq_some {bf bf' : SimpleBloomFilter} {x : String}
    (h : add bf x = some bf') :
    bf.size ≠ 0 ∧ bf'.size = bf.size ∧ bf'.num_hashes = bf.num_hashes ∧
      setBits bf.bit_array (index_positions bf.size bf.num_hashes x) =
        some bf'.bit_array := by
  unfold add at h
  split at h
  · cases h
  · rename_i hs hh
    split at h
    · cases h
    · rename_i arr hsb
      cases h
      have hsz : bf.size ≠ 0 := by
        intro h0
        rw [_hashes_zero h0 x] at hh
        cases hh
      have hs_eq : hs = index_positions bf.size bf.num_hashes x := by
        have := _hashes_eq hsz x
        rw [hh] at this
        exact Option.some.inj this
      subst hs_eq
      exact ⟨hsz, rfl, rfl, hsb⟩

/-- Under the length invariant and a positive size, `add` raises nothing. -/
theorem add_isSome {bf : SimpleBloomFilter} (x : String) (hsz : 0 < bf.size)
    (hlen : bf.bit_array.length = bf.size) : ∃ bf', add bf x = some bf' := by
  have hb : ∀ i ∈ index_positions bf.size bf.num_hashes x,
      i < bf.bit_array.length := by
    intro i hi
    rw [hlen]
    exact index_positions_lt hsz x i hi
  obtain ⟨arr, harr⟩ := setBits_isSome hb
  refine ⟨{ bf with bit_array := arr }, ?_⟩
  simp only [add, _hashes_eq (Nat.pos_iff_ne_zero.mp hsz) x, harr]

/-- Pointwise description of a successful `add`. -/
theorem add_getElem? {bf bf' : SimpleBloomFilter} {x : String}
    (h : add bf x = some bf') (j : Nat) :
    bf'.bit_array[j]? =
      if j ∈ index_positions bf.size bf.num_hashes x then some 1
      else bf.bit_array[j]? := by
  have hsb := (add_eq_some h).2.2.2
  exact setBits_getElem? hsb j

/-- A successful `add` preserves the array length. -/
theorem add_length {bf bf' : SimpleBloomFilter} {x : String}
    (h : add bf x = some bf') :
    bf'.bit_array.length = bf.bit_array.length := by
  have hsb := (add_eq_some h).2.2.2
  exact setBits_length hsb

/-- A successful `add` leaves every hash position of the item holding 1. -/
theorem add_sets {bf bf' : SimpleBloomFilter} {x : String}
    (h : add bf x = some bf') :
    ∀ j ∈ index_positions bf.size bf.num_hashes x,
      bf'.bit_array[j]? = some 1 := by
  intro j hj
  rw [add_getElem? h j, if_pos hj]

/-- A successful `add` never clears a 1 bit. -/
theorem add_mono {bf bf' : SimpleBloomFilter} {x : String}
    (h : add bf x = some bf') :
    ∀ j : Nat, bf.bit_array[j]? = some 1 → bf'.bit_array[j]? = some 1 := by
  intro j hj
  rw [add_getElem? h j]
  split
  · rfl
  · exact hj

/-- A successful `add` preserves the data-model invariant. -/
theorem add_FilterInv {bf bf' : SimpleBloomFilter} {x : String}
    (hinv : FilterInv bf) (h : add bf x = some bf') : FilterInv bf' := by
  obtain ⟨hlen, hbits⟩ := hinv
  refine ⟨?_, ?_⟩
  · rw [add_length h, (add_eq_some h).2.1, hlen]
  · intro b hb
    rcases setBits_mem (add_eq_some h).2.2.2 b hb with rfl | hmem
    · exact Or.inr rfl
    · exact hbits b hmem

/-! ### Lemmas about `addAll` -/

/-- A successful sequence of `add` calls keeps the configuration and the
array length, and never clears a 1 bit. -/
theorem addAll_eq_some : ∀ {ys : List String} {bf bf' : SimpleBloomFilter},
    addAll bf ys = some bf' →
    bf'.size = bf.size ∧ bf'.num_hashes = bf.num_hashes ∧
      bf'.bit_array.length = bf.bit_array.length ∧
      ∀ j : Nat, bf.bit_array[j]? = some 1 → bf'.bit_array[j]? = some 1 := by
  intro ys
  induction ys with
  | nil =>
    intro bf bf' h
    cases h
    exact ⟨rfl, rfl, rfl, fun _ hj => hj⟩
  | cons y ys ih =>
    intro bf bf' h
    simp only [addAll] at h
    cases hy : add bf y with
    | none => rw [hy] at h; cases h
    | some bf₁ =>
      rw [hy] at h
      obtain ⟨h1, h2, h3, h4⟩ := ih h
      refine ⟨h1.trans (add_eq_some hy).2.1, h2.trans (add_eq_some hy).2.2.1,
        h3.trans (add_length hy), fun j hj => h4 j (add_mono hy j hj)⟩

/-- Under the length invariant and a positive size, any sequence of `add`
calls runs without raising. -/
theorem addAll_isSome : ∀ (ys : List String) {bf : SimpleBloomFilter},
    0 < bf.size → bf.bit_array.length = bf.size →
    ∃ bf', addAll bf ys = some bf' := by
  intro ys
  induction ys with
  | nil => intro bf _ _; exact ⟨bf, rfl⟩
  | cons y ys ih =>
    intro bf hsz hlen
    obtain ⟨bf₁, h₁⟩ := add_isSome y hsz hlen
    have hsz₁ : 0 < bf₁.size := by rw [(add_eq_some h₁).2.1]; exact hsz
    have hlen₁ : bf₁.bit_array.length = bf₁.size := by
      rw [add_length h₁, (add_eq_some h₁).2.1, hlen]
    obtain ⟨bf', h'⟩ := ih hsz₁ hlen₁
    refine ⟨bf', ?_⟩
    simp only [addAll]
    rw [h₁]
    exact h'

/-! ### Lemmas about persistence -/

/-- Characters of a left fold of string concatenations. -/
theorem foldl_append_data : ∀ (ls : List String) (s : String),
    (ls.foldl (fun r t => r ++ t) s).data = s.data ++ (ls.map String.data).flatten := by
  intro ls
  induction ls with
  | nil => intro s; simp
  | cons a as ih =>
    intro s
    simp only [List.foldl_cons, List.map_cons, List.flatten_cons]
    rw [ih (s ++ a), String.data_append, List.append_assoc]

/-- Characters of `String.join`, the model of the join of the bit texts. -/
theorem join_data (ls : List String) :
    (String.join ls).data = (ls.map String.data).flatten := by
  simp [String.join, foldl_append_data ls ""]

/-- The decimal text of a bit is the single character `'0'` or `'1'`. -/
theorem repr_bit_data {b : Nat} (hb : b = 0 ∨ b = 1) :
    (Nat.repr b).data = [Char.ofNat (48 + b)] := by
  rcases hb with rfl | rfl <;> decide

/-- `int(c)` recovers a bit from its decimal character. -/
theorem pyDigit_bit {b : Nat} (hb : b = 0 ∨ b = 1) :
    pyDigit (Char.ofNat (48 + b)) = some b := by
  rcases hb with rfl | rfl <;> decide

/-- The text `save_filter` writes, one character per bit. -/
theorem save_filter_data {bf : SimpleBloomFilter}
    (hbits : ∀ b ∈ bf.bit_array, b = 0 ∨ b = 1) :
    (save_filter bf).data = bf.bit_array.map (fun b => Char.ofNat (48 + b)) := by
  unfold save_filter
  rw [join_data, List.map_map]
  have : ∀ l : List Nat, (∀ b ∈ l, b = 0 ∨ b = 1) →
      (l.map (String.data ∘ fun b => Nat.repr b)).flatten =
        l.map (fun b => Char.ofNat (48 + b)) := by
    intro l
    induction l with
    | nil => intro _; rfl
    | cons b bs ih =>
      intro h
      simp only [List.map_cons, List.flatten_cons, Function.comp]
      rw [repr_bit_data (h b (List.mem_cons_self b bs)),
        ih (fun d hd => h d (List.mem_cons_of_mem _ hd))]
      rfl
  exact this bf.bit_array hbits

/-- Parsing the decimal characters of a bit list recovers the bit list. -/
theorem parseDigits_bits : ∀ {l : List Nat}, (∀ b ∈ l, b = 0 ∨ b = 1) →
    parseDigits (l.map (fun b => Char.ofNat (48 + b))) = some l := by
  intro l
  induction l with
  | nil => intro _; rfl
  | cons b bs ih =>
    intro h
    simp only [List.map_cons, parseDigits]
    rw [pyDigit_bit (h b (List.mem_cons_self b bs)),
      ih (fun d hd => h d (List.mem_cons_of_mem _ hd))]

/-- A successful parse yields one value per character. -/
theorem parseDigits_length : ∀ {cs : List Char} {ds : List Nat},
    parseDigits cs = some ds → ds.length = cs.length := by
  intro cs
  induction cs with
  | nil => intro ds h; cases h; rfl
  | cons c cs ih =>
    intro ds h
    simp only [parseDigits] at h
    cases hc : pyDigit c with
    | none => rw [hc] at h; cases h
    | some d =>
      rw [hc] at h
      cases hcs : parseDigits cs with
      | none => rw [hcs] at h; cases h
      | some ds' =>
        rw [hcs] at h
        cases h
        simp [ih hcs]

/-- Parsing a text of `'0'` and `'1'` characters yields only bits. -/
theorem parseDigits_mem_bits : ∀ {cs : List Char} {ds : List Nat},
    parseDigits cs = some ds → (∀ c ∈ cs, c = '0' ∨ c = '1') →
    ∀ d ∈ ds, d = 0 ∨ d = 1 := by
  intro cs
  induction cs with
  | nil => intro ds h _ d hd; cases h; cases hd
  | cons c cs ih =>
    intro ds h hc d hd
    simp only [parseDigits] at h
    cases hcd : pyDigit c with
    | none => rw [hcd] at h; cases h
    | some e =>
      rw [hcd] at h
      cases hcs : parseDigits cs with
      | none => rw [hcs] at h; cases h
      | some ds' =>
        rw [hcs] at h
        cases h
        rcases List.mem_cons.mp hd with rfl | hdm
        · rcases hc c (List.mem_cons_self c cs) with rfl | rfl
          · left
            have h0 : pyDigit '0' = some 0 := by decide
            rw [h0] at hcd
            exact (Option.some.inj hcd).symm
          · right
            have h1 : pyDigit '1' = some 1 := by decide
            rw [h1] at hcd
            exact (Option.some.inj hcd).symm
        · exact ih hcs (fun e he => hc e (List.mem_cons_of_mem _ he)) d hdm

set_option maxRecDepth 100000

/-! ### The claims -/

/-- C1: no false negatives. On a filter with positive `size` whose bit array
has length `size`, `add x` succeeds, any further sequence of `add` calls
succeeds (no intervening restore or external reset), and every subsequent
`check x` returns `True`. -/
theorem no_false_negatives (bf : SimpleBloomFilter) (x : String)
    (ys : List String) (hsz : 0 < bf.size)
    (hlen : bf.bit_array.length = bf.size) :
    ∃ bf₁ bf₂, add bf x = some bf₁ ∧ addAll bf₁ ys = some bf₂ ∧
      check bf₂ x = some true := by
  obtain ⟨bf₁, h₁⟩ := add_isSome x hsz hlen
  have hsz₁ : 0 < bf₁.size := by
    rw [(add_eq_some h₁).2.1]
    exact hsz
  have hlen₁ : bf₁.bit_array.length = bf₁.size := by
    rw [add_length h₁, (add_eq_some h₁).2.1, hlen]
  obtain ⟨bf₂, h₂⟩ := addAll_isSome ys hsz₁ hlen₁
  refine ⟨bf₁, bf₂, h₁, h₂, ?_⟩
  have hsz₂ : bf₂.size = bf.size := by
    rw [(addAll_eq_some h₂).1, (add_eq_some h₁).2.1]
  have hnh₂ : bf₂.num_hashes = bf.num_hashes := by
    rw [(addAll_eq_some h₂).2.1, (add_eq_some h₁).2.2.1]
  have hsz₂' : bf₂.size ≠ 0 := by
    rw [hsz₂]
    exact Nat.pos_iff_ne_zero.mp hsz
  simp only [check, _hashes_eq hsz₂' x]
  rw [hsz₂, hnh₂]
  apply checkBits_all_one
  intro i hi
  exact (addAll_eq_some h₂).2.2.2 i (add_sets h₁ i hi)

/-- C1 witness. -/
theorem no_false_negatives_witness :
    ∃ bf₁ bf₂,
      add { size := 10, num_hashes := 2, bit_array := List.replicate 10 0 } "a"
        = some bf₁ ∧
      addAll bf₁ ["b"] = some bf₂ ∧ check bf₂ "a" = some true :=
  no_false_negatives ⟨10, 2, List.replicate 10 0⟩ "a" ["b"]
    (by decide) (by decide)

/-- C2: round-trip persistence. Saving a filter whose bits are all 0 or 1
and constructing a fresh filter with the same `size` against the saved text
(the same storage location) restores an identical `bit_array`, whatever the
new filter's hash count. -/
theorem round_trip_persistence (bf : SimpleBloomFilter) (nh₂ : Nat)
    (hbits : ∀ b ∈ bf.bit_array, b = 0 ∨ b = 1) :
    init bf.size nh₂ (some (save_filter bf)) =
      some { size := bf.size, num_hashes := nh₂, bit_array := bf.bit_array } := by
  simp only [init, load_filter, save_filter_data hbits, parseDigits_bits hbits]

/-- C2 witness. -/
theorem round_trip_persistence_witness :
    init ({ size := 3, num_hashes := 2, bit_array := [1, 0, 1] } :
        SimpleBloomFilter).size 2
      (some (save_filter { size := 3, num_hashes := 2, bit_array := [1, 0, 1] })) =
      some { size := 3, num_hashes := 2, bit_array := [1, 0, 1] } :=
  round_trip_persistence ⟨3, 2, [1, 0, 1]⟩ 2 (by decide)

/-- C3: index computation. With a positive `size`, `_hashes` returns the
sequence whose `i`-th entry is the SHA-256 digest of the item's text
concatenated with the decimal text of `i`, read as an unsigned integer and
reduced modulo `size`. The sequence is a pure function of `(size, num_hashes,
item)`, hence identical on every call with a fixed configuration. -/
theorem index_computation (bf : SimpleBloomFilter) (item : String)
    (hsz : 0 < bf.size) :
    _hashes bf item = some (index_positions bf.size bf.num_hashes item) ∧
      ∀ i : Nat, i < bf.num_hashes →
        (index_positions bf.size bf.num_hashes item)[i]? =
          some (sha256Nat (strBytes (item ++ Nat.repr i)) % bf.size) := by
  refine ⟨_hashes_eq (Nat.pos_iff_ne_zero.mp hsz) item, ?_⟩
  intro i hi
  exact index_positions_getElem? hi

/-- C3 witness. -/
theorem index_computation_witness :
    _hashes { size := 10, num_hashes := 2, bit_array := List.replicate 10 0 }
        "a" = some (index_positions 10 2 "a") ∧
      ∀ i : Nat, i < 2 →
        (index_positions 10 2 "a")[i]? =
          some (sha256Nat (strBytes ("a" ++ Nat.repr i)) % 10) :=
  index_computation ⟨10, 2, List.replicate 10 0⟩ "a" (by decide)

/-- C4: check semantics. On a filter with positive `size`, a full-length bit
array and 0/1 bits, `check` returns `False` exactly when some hash position
holds bit 0 (the code returns at the first such position) and returns `True`
exactly when all `num_hashes` positions hold bit 1. The embedding of `check`
returns only a Boolean and leaves the filter untouched: no mutation. -/
theorem check_semantics (bf : SimpleBloomFilter) (x : String)
    (hsz : 0 < bf.size) (hlen : bf.bit_array.length = bf.size)
    (hbits : ∀ b ∈ bf.bit_array, b = 0 ∨ b = 1) :
    (check bf x = some false ↔
      ∃ i ∈ index_positions bf.size bf.num_hashes x,
        bf.bit_array[i]? = some 0) ∧
    (check bf x = some true ↔
      ∀ i ∈ index_positions bf.size bf.num_hashes x,
        bf.bit_array[i]? = some 1) := by
  have hb : ∀ i ∈ index_positions bf.size bf.num_hashes x,
      i < bf.bit_array.length := by
    intro i hi
    rw [hlen]
    exact index_positions_lt hsz x i hi
  have hch : check bf x =
      checkBits bf.bit_array (index_positions bf.size bf.num_hashes x) := by
    simp only [check, _hashes_eq (Nat.pos_iff_ne_zero.mp hsz) x]
  constructor
  · rw [hch]
    exact checkBits_false_iff hb
  · rw [hch, checkBits_true_iff hb]
    constructor
    · intro hall i hi
      obtain ⟨b, hbv⟩ : ∃ b, bf.bit_array[i]? = some b :=
        ⟨_, List.getElem?_eq_some_iff.mpr ⟨hb i hi, rfl⟩⟩
      rcases hbits b (List.mem_iff_getElem?.mpr ⟨i, hbv⟩) with rfl | rfl
      · exact absurd hbv (hall i hi)
      · exact hbv
    · intro hall i hi
      rw [hall i hi]
      intro hcon
      exact one_ne_zero (Option.some.inj hcon)

/-- C4 witness. -/
theorem check_semantics_witness :
    (check { size := 10, num_hashes := 2, bit_array := List.replicate 10 0 }
        "a" = some false ↔
      ∃ i ∈ index_positions 10 2 "a",
        (List.replicate 10 (0 : Nat))[i]? = some 0) ∧
    (check { size := 10, num_hashes := 2, bit_array := List.replicate 10 0 }
        "a" = some true ↔
      ∀ i ∈ index_positions 10 2 "a",
        (List.replicate 10 (0 : Nat))[i]? = some 1) :=
  check_semantics ⟨10, 2, List.replicate 10 0⟩ "a" (by decide) (by decide)
    (by decide)

/-- C5 counterexample: construction against a stored file whose text is
longer than `size` silently adopts the file's length, so `len(bit_array)`
differs from `size` right after construction. -/
theorem size_invariant_counterexample :
    ∃ bf, init 3 6 (some "00000") = some bf ∧
      bf.bit_array.length ≠ bf.size := by
  refine ⟨{ size := 3, num_hashes := 6, bit_array := [0, 0, 0, 0, 0] }, ?_, ?_⟩
  · decide
  · decide

/-- C5 (amended): the invariant `len(bit_array) = size` with all bits 0 or 1
holds after construction with no stored file and is preserved by every
successful `add`; a restore preserves it exactly when the stored text has
exactly `size` characters, each the digit 0 or the digit 1. (`check` and `save_filter`
read the state without touching it — in this embedding they return only a
Boolean or the written text — so they preserve it trivially.) -/
theorem size_invariant :
    (∀ size nh : Nat, ∀ bf : SimpleBloomFilter,
      init size nh none = some bf → FilterInv bf) ∧
    (∀ (bf : SimpleBloomFilter) (x : String) (bf' : SimpleBloomFilter),
      FilterInv bf → add bf x = some bf' → FilterInv bf') ∧
    (∀ (bf : SimpleBloomFilter) (s : String) (bf' : SimpleBloomFilter),
      s.data.length = bf.size → (∀ c ∈ s.data, c = '0' ∨ c = '1') →
      load_filter bf (some s) = some bf' → FilterInv bf') := by
  refine ⟨?_, ?_, ?_⟩
  · intro size nh bf h
    simp only [init, load_filter] at h
    cases h
    constructor
    · simp
    · intro b hb
      rw [List.eq_of_mem_replicate hb]
      exact Or.inl rfl
  · intro bf x bf' hinv h
    exact add_FilterInv hinv h
  · intro bf s bf' hlen hc h
    simp only [load_filter] at h
    cases hp : parseDigits s.data with
    | none => rw [hp] at h; cases h
    | some ds =>
      rw [hp] at h
      cases h
      constructor
      · simpa using (parseDigits_length hp).trans hlen
      · intro b hb
        exact parseDigits_mem_bits hp hc b hb

/-- C5 witness: the three clauses at concrete inputs. -/
theorem size_invariant_witness :
    FilterInv { size := 2, num_hashes := 1, bit_array := [0, 0] } ∧
    FilterInv { size := 10, num_hashes := 2,
                bit_array := [1, 0, 1, 0, 0, 0, 0, 0, 0, 0] } ∧
    FilterInv { size := 2, num_hashes := 5, bit_array := [1, 0] } := by
  refine ⟨?_, ?_, ?_⟩
  · exact size_invariant.1 2 1 _ (by decide)
  · exact size_invariant.2.1 ⟨10, 2, List.replicate 10 0⟩ "a"
      ⟨10, 2, [1, 0, 1, 0, 0, 0, 0, 0, 0, 0]⟩ ⟨by decide, by decide⟩ (by decide)
  · exact size_invariant.2.2 ⟨2, 5, [0, 1]⟩ "10" ⟨2, 5, [1, 0]⟩ (by decide)
      (by decide) (by decide)

/-- C6: monotonicity. Over any successful sequence of `add` calls, no bit
ever changes from 1 to 0. (`check` only reads the array — in this embedding
it returns only a Boolean — so it changes no bit; `load_filter` is the lone
bulk overwrite.) -/
theorem monotonicity (bf : SimpleBloomFilter) (ys : List String)
    (bf' : SimpleBloomFilter) (h : addAll bf ys = some bf') :
    ∀ j : Nat, bf.bit_array[j]? = some 1 → bf'.bit_array[j]? = some 1 :=
  (addAll_eq_some h).2.2.2

/-- C6 witness. -/
theorem monotonicity_witness :
    (({ size := 10, num_hashes := 1,
        bit_array := [1, 0, 1, 0, 0, 0, 0, 0, 0, 0] } :
      SimpleBloomFilter).bit_array)[0]? = some 1 :=
  monotonicity ⟨10, 1, [1, 0, 0, 0, 0, 0, 0, 0, 0, 0]⟩ ["a"] _ (by decide) 0
    (by decide)

/-- C7: idempotence of `add`. A second `add` of the same item succeeds and
returns the very same filter, bit array included. -/
theorem add_idempotent (bf bf₁ : SimpleBloomFilter) (x : String)
    (h : add bf x = some bf₁) : add bf₁ x = some bf₁ := by
  obtain ⟨hsz, hsize, hnh, hsb⟩ := add_eq_some h
  have hbounds : ∀ i ∈ index_positions bf.size bf.num_hashes x,
      i < bf₁.bit_array.length := by
    intro i hi
    rw [setBits_length hsb]
    exact setBits_bounds hsb i hi
  obtain ⟨arr₂, harr₂⟩ := setBits_isSome hbounds
  have harr_eq : arr₂ = bf₁.bit_array := by
    apply List.ext_getElem?
    intro j
    rw [setBits_getElem? harr₂ j]
    by_cases hj : j ∈ index_positions bf.size bf.num_hashes x
    · rw [if_pos hj, setBits_getElem? hsb j, if_pos hj]
    · rw [if_neg hj]
  subst harr_eq
  have hsz₁ : bf₁.size ≠ 0 := by
    rw [hsize]
    exact hsz
  simp only [add, _hashes_eq hsz₁ x, hsize, hnh, harr₂]
  rw [← hsize, ← hnh]

/-- C7 witness. -/
theorem add_idempotent_witness :
    add { size := 10, num_hashes := 2,
          bit_array := [1, 0, 1, 0, 0, 0, 0, 0, 0, 0] } "a" =
      some { size := 10, num_hashes := 2,
             bit_array := [1, 0, 1, 0, 0, 0, 0, 0, 0, 0] } :=
  add_idempotent ⟨10, 2, List.replicate 10 0⟩ _ "a" (by decide)

/-- C8 counterexample: construction with `size = 0` (a non-positive size)
does not fail — the code has no `InvalidConfiguration` error at all; with no
stored file it succeeds and returns a filter with an empty bit array. -/
theorem invalid_configuration_counterexample :
    init 0 6 none = some { size := 0, num_hashes := 6, bit_array := [] } :=
  rfl

/-- C8 (amended): the code performs no validation of `size` or `num_hashes`.
With no stored file, construction succeeds for every configuration — also
for `size = 0` or `num_hashes = 0` — initializing `bit_array` to `size`
zeros. The `size > 0`, `num_hashes > 0` check is recommended hardening that
the source does not implement. -/
theorem construction_no_validation (size nh : Nat) :
    init size nh none =
      some { size := size, num_hashes := nh,
             bit_array := List.replicate size 0 } :=
  rfl

/-- C9: negative correctness on an empty filter. With positive `size` and
`num_hashes`, a filter constructed with no stored file answers `False` to
every `check`, whatever the item. -/
theorem check_false_on_empty (size nh : Nat) (x : String) (hsz : 0 < size)
    (hnh : 0 < nh) :
    ∃ bf, init size nh none = some bf ∧ check bf x = some false := by
  refine ⟨SimpleBloomFilter.mk size nh (List.replicate size 0), rfl, ?_⟩
  have hs0 : (SimpleBloomFilter.mk size nh (List.replicate size 0)).size ≠ 0 :=
    Nat.pos_iff_ne_zero.mp hsz
  simp only [check, _hashes_eq hs0 x]
  obtain ⟨m, rfl⟩ := Nat.exists_eq_succ_of_ne_zero (Nat.pos_iff_ne_zero.mp hnh)
  rw [index_positions, List.range_succ_eq_map, List.map_cons]
  have hlt : sha256Nat (strBytes (x ++ Nat.repr 0)) % size < size :=
    Nat.mod_lt _ hsz
  simp [checkBits, List.getElem?_replicate_of_lt hlt]

/-- C9 witness. -/
theorem check_false_on_empty_witness :
    ∃ bf, init 10 2 none = some bf ∧ check bf "a" = some false :=
  check_false_on_empty 10 2 "a" (by decide) (by decide)

/-- C10: index-range safety. With positive `size`, every index the hash
computation produces lies below `size`; hence, when `len(bit_array) = size`,
`add` and `check` never subscript the array out of bounds (they raise
nothing). The bound protects the accesses only through that length
precondition: a restore that left the array shorter than `size` voids it. -/
theorem index_range_safety (bf : SimpleBloomFilter) (x : String)
    (hsz : 0 < bf.size) (hlen : bf.bit_array.length = bf.size) :
    (∃ l, _hashes bf x = some l ∧ ∀ i ∈ l, i < bf.size) ∧
      (add bf x).isSome ∧ (check bf x).isSome := by
  refine ⟨⟨_, _hashes_eq (Nat.pos_iff_ne_zero.mp hsz) x,
    index_positions_lt hsz x⟩, ?_, ?_⟩
  · obtain ⟨bf', h⟩ := add_isSome x hsz hlen
    rw [h]
    rfl
  · have hb : ∀ i ∈ index_positions bf.size bf.num_hashes x,
        i < bf.bit_array.length := by
      intro i hi
      rw [hlen]
      exact index_positions_lt hsz x i hi
    have hch : check bf x =
        checkBits bf.bit_array (index_positions bf.size bf.num_hashes x) := by
      simp only [check, _hashes_eq (Nat.pos_iff_ne_zero.mp hsz) x]
    rw [hch]
    exact checkBits_isSome hb

/-- C10 witness. -/
theorem index_range_safety_witness :
    (∃ l, _hashes (SimpleBloomFilter.mk 10 2 (List.replicate 10 0)) "a"
        = some l ∧ ∀ i ∈ l, i < 10) ∧
      (add (SimpleBloomFilter.mk 10 2 (List.replicate 10 0)) "a").isSome ∧
      (check (SimpleBloomFilter.mk 10 2 (List.replicate 10 0)) "a").isSome :=
  index_range_safety ⟨10, 2, List.replicate 10 0⟩ "a" (by decide) (by decide)
